import Mathlib

/-!
Verification of the Addepar/cli concurrency core against its specification.

The definitions below are a shallow embedding of the JavaScript sources:

* packages/core/dist/queue.js — the priority task queue (class Queue);
* the browserified logger bundle (class PercyLogger);
* the Percy core state machine (class Percy), of which we embed the
  snapshot-method guard and enqueue behaviour.

JavaScript Maps are embedded as insertion-ordered association lists (the
key is stored inside the element); machine integers are Lean Int; promise
settlement is tracked in an explicit futures ledger indexed by creation
order.  The promise-generator adapter (core/dist/utils.js, generatePromise)
is not among the given sources; where its behaviour matters it is modelled
from the specification, as noted at the definition.
-/

/-- FutureState tracks the settlement of the promise returned by Queue.push:
a promise starts unsettled and settles at most once (fulfilled, rejected
with the distinguished canceled failure, or rejected with another error). -/
inductive FutureState where
  | unsettled
  | fulfilled
  | rejectedCanceled
  | rejectedError
deriving DecidableEq, Repr

/-- QTask embeds the task record built by Queue.push: the string id, the
optional numeric priority (none embeds the JavaScript undefined produced by
omitting the push priority argument), and the index of the promise created
for it in the futures ledger.  The callback itself is opaque to the queue
scheduling logic and is not carried. -/
structure QTask where
  id : String
  priority : Option Int
  fid : Nat
deriving DecidableEq, Repr

/-- Queue embeds the state of the Queue class from queue.js: concurrency,
the running and closed flags, the insertion-ordered queued and pending maps
(association lists keyed by QTask.id), and the ledger of promise states for
every future ever returned by push (index = QTask.fid). -/
structure Queue where
  concurrency : Nat
  running : Bool
  closed : Bool
  queued : List QTask
  pending : List QTask
  futures : List FutureState
deriving Repr

/-- Queue.init embeds the constructor: new Queue(concurrency) with
running = true, closed = false and both maps empty. -/
def Queue.init (concurrency : Nat) : Queue :=
  { concurrency := concurrency, running := true, closed := false
    queued := [], pending := [], futures := [] }

/-- mapDelete embeds JavaScript Map.prototype.delete keeping the remaining
entries in insertion order (keys are unique in a Map, so at most one entry
is removed). -/
def mapDelete (id : String) (l : List QTask) : List QTask :=
  l.filter (fun t => t.id != id)

/-- mapSet embeds JavaScript Map.prototype.set: an existing key keeps its
position and gets the new value, a new key is appended at the end. -/
def mapSet (t : QTask) (l : List QTask) : List QTask :=
  if l.any (fun u => u.id == t.id) then
    l.map (fun u => if u.id == t.id then t else u)
  else l ++ [t]

/-- settleFuture settles the promise with index fid: a promise settles at
most once, so an already settled future is left unchanged. -/
def settleFuture (fs : List FutureState) (fid : Nat) (v : FutureState) : List FutureState :=
  match fs.get? fid with
  | some FutureState.unsettled => fs.set fid v
  | _ => fs

/-- jsLtPriority embeds the JavaScript comparison task.priority <
next.priority from Queue.next.  In the source the priority of a task pushed
without the third argument is undefined, and any < comparison against
undefined is false; both operands must be numbers for the comparison to
hold. -/
def jsLtPriority : Option Int → Option Int → Bool
  | some a, some b => decide (a < b)
  | _, _ => false

/-- canReplace embeds the replacement condition in the scan of Queue.next:
not next, or task.priority != null and next.priority == null, or
task.priority < next.priority. -/
def canReplace (t : QTask) : Option QTask → Bool
  | none => true
  | some n => (t.priority.isSome && n.priority.isNone) || jsLtPriority t.priority n.priority

/-- nextLoop embeds the for-of loop of Queue.next over the queued map: the
best candidate so far is updated by canReplace, and the loop breaks right
after processing the entry whose id is the flush sentinel. -/
def nextLoop : List QTask → Option QTask → Option QTask
  | [], acc => acc
  | t :: rest, acc =>
      let acc' := if canReplace t acc then some t else acc
      if t.id == "@@/flush" then acc' else nextLoop rest acc'

/-- Queue.next embeds Queue#next from queue.js lines 111-120. -/
def Queue.next (q : Queue) : Option QTask :=
  nextLoop q.queued none

/-- Queue.cancel embeds Queue#cancel from queue.js lines 33-39 together with
the effect of the adapter cancel handle on the task promise.  The source
calls pending.get(id)?.cancel?.() and then deletes id from pending and from
queued; every pending task carries the cancel handle installed at promotion
(task.cancel = gen.cancel in Queue#_dequeue).

Modelled from the spec: generatePromise (core/dist/utils.js) is not among
the given sources; per spec section 4.1 its cancel rejects the in-flight
work with the distinguished canceled failure, which Queue#_dequeue's done
handler forwards to task.reject, so the pending task's future settles as
rejectedCanceled.  A task found only in queued has no cancel handle and
nothing ever settles its promise. -/
def Queue.cancel (q : Queue) (id : String) : Queue :=
  let futures :=
    match q.pending.find? (fun t => t.id == id) with
    | some t => settleFuture q.futures t.fid FutureState.rejectedCanceled
    | none => q.futures
  { q with
    pending := mapDelete id q.pending
    queued := mapDelete id q.queued
    futures := futures }

/-- Queue.dequeue embeds Queue#_dequeue from queue.js lines 122-149: return
unless running, return at capacity, otherwise promote the task selected by
Queue.next from queued to pending.  The promoted callback starts running;
its completion is a separate asynchronous event embedded by
Queue.complete. -/
def Queue.dequeue (q : Queue) : Queue :=
  if !q.running then q
  else if q.concurrency ≤ q.pending.length then q
  else
    match q.next with
    | none => q
    | some t =>
        { q with
          queued := mapDelete t.id q.queued
          pending := q.pending ++ [t] }

/-- jsStartsWith embeds the JavaScript test id.startsWith on character
lists (String.startsWith itself does not reduce inside the kernel). -/
def jsStartsWith (s pre : String) : Bool :=
  List.isPrefixOf pre.toList s.toList

/-- Queue.push embeds Queue#push from queue.js lines 12-31: a push on a
closed queue whose id does not start with the reserved sentinel marker
returns undefined (embedded as none) and changes nothing; otherwise any
existing task with the same id is canceled, a fresh task with a fresh
promise is appended to queued, and the scheduler is triggered once.  The
returned value is the index of the fresh promise in the futures ledger. -/
def Queue.push (q : Queue) (id : String) (priority : Option Int) : Queue × Option Nat :=
  if q.closed && !(jsStartsWith id "@@/") then (q, none)
  else
    let q1 := q.cancel id
    let fid := q1.futures.length
    let t : QTask := { id := id, priority := priority, fid := fid }
    let q2 := { q1 with
                queued := mapSet t q1.queued
                futures := q1.futures ++ [FutureState.unsettled] }
    (q2.dequeue, some fid)

/-- Queue.size embeds the size getter: queued size plus pending size. -/
def Queue.size (q : Queue) : Nat :=
  q.queued.length + q.pending.length

/-- Queue.has embeds Queue#has: id is queued or pending. -/
def Queue.has (q : Queue) (id : String) : Bool :=
  q.queued.any (fun t => t.id == id) || q.pending.any (fun t => t.id == id)

/-- Queue.clear embeds Queue#clear from queue.js lines 45-48: it empties the
queued map and then returns this.size, which is computed after the map was
emptied. -/
def Queue.clear (q : Queue) : Queue × Nat :=
  let q' := { q with queued := [] }
  (q', q'.size)

/-- Queue.complete embeds the done handler installed by Queue#_dequeue for a
promoted task that settles without having been canceled: the task is
removed from pending, its promise settles (fulfilled on resolve, rejected
on reject), and the scheduler is re-entered. -/
def Queue.complete (q : Queue) (id : String) (ok : Bool) : Queue :=
  match q.pending.find? (fun t => t.id == id) with
  | none => q
  | some t =>
      let q' := { q with
                  pending := mapDelete id q.pending
                  futures := settleFuture q.futures t.fid
                    (if ok then FutureState.fulfilled else FutureState.rejectedError) }
      q'.dequeue

/-- jsIndexOf embeds Array.prototype.indexOf on the array of queued keys:
the 0-based index of the first occurrence, or -1 when absent. -/
def jsIndexOf : List String → String → Int
  | [], _ => -1
  | y :: ys, x =>
      if y == x then 0
      else
        let r := jsIndexOf ys x
        if r = -1 then -1 else r + 1

/-- flushPollLeft embeds the left computation in the idle callback of
Queue#flush (queue.js lines 101-104): left is the index of the flush
sentinel among the queued keys, and is reset to 0 only when that index is
-1 and the sentinel is not pending either. -/
def flushPollLeft (q : Queue) : Int :=
  let left := jsIndexOf (q.queued.map (fun t => t.id)) "@@/flush"
  if left = -1 && !(q.pending.any (fun t => t.id == "@@/flush")) then 0 else left

/-- flushPollValue embeds the value passed to the flush progress callback on
one idle poll: the pending count (the argument supplied by Queue#idle) plus
left. -/
def flushPollValue (q : Queue) : Int :=
  (q.pending.length : Int) + flushPollLeft q

/-! ### Facts about the selection scan of Queue.next -/

/-- nextLoop_cons unfolds one step of the selection scan. -/
lemma nextLoop_cons (t : QTask) (rest : List QTask) (acc : Option QTask) :
    nextLoop (t :: rest) acc =
      (let acc' := if canReplace t acc then some t else acc
       if t.id == "@@/flush" then acc' else nextLoop rest acc') := rfl

/-- jsLtPriority_isSome shows a successful JavaScript priority comparison has
numbers on both sides. -/
lemma jsLtPriority_isSome {a b : Option Int} (h : jsLtPriority a b = true) :
    a.isSome = true ∧ b.isSome = true := by
  cases a <;> cases b <;> simp [jsLtPriority] at h ⊢

/-- canReplace_some_isSome: a candidate that replaces a numerically
prioritized best task is itself numerically prioritized. -/
lemma canReplace_some_isSome {t n : QTask} (hn : n.priority.isSome = true)
    (h : canReplace t (some n) = true) : t.priority.isSome = true := by
  unfold canReplace at h
  rw [Bool.or_eq_true, Bool.and_eq_true] at h
  rcases h with ⟨hs, _⟩ | hlt
  · exact hs
  · exact (jsLtPriority_isSome hlt).1

/-- nextLoop_numeric: if some task scanned before the flush barrier has a
numeric priority (or the accumulator already does), the scan result has a
numeric priority. -/
lemma nextLoop_numeric : ∀ (l : List QTask) (acc : Option QTask),
    ((∃ A ∈ l.takeWhile (fun u => u.id != "@@/flush"), A.priority.isSome = true) ∨
      (∃ n, acc = some n ∧ n.priority.isSome = true)) →
    ∃ t, nextLoop l acc = some t ∧ t.priority.isSome = true := by
  intro l
  induction l with
  | nil =>
      intro acc h
      rcases h with ⟨A, hA, _⟩ | ⟨n, rfl, hn⟩
      · simp at hA
      · exact ⟨n, rfl, hn⟩
  | cons t rest ih =>
      intro acc h
      rw [nextLoop_cons]
      by_cases hf : (t.id == "@@/flush") = true
      · -- the scan breaks at t, and no element was taken by takeWhile
        have heq : t.id = "@@/flush" := by simpa using hf
        have hA : ∃ n, acc = some n ∧ n.priority.isSome = true := by
          rcases h with ⟨A, hA, _⟩ | h'
          · rw [List.takeWhile_cons] at hA
            simp [heq] at hA
          · exact h'
        obtain ⟨n, rfl, hn⟩ := hA
        by_cases hcr : canReplace t (some n) = true
        · exact ⟨t, by simp [hf, hcr], canReplace_some_isSome hn hcr⟩
        · exact ⟨n, by simp [hf, hcr], hn⟩
      · -- the scan continues into rest
        simp only [hf]
        have hnext : (∃ A ∈ rest.takeWhile (fun u => u.id != "@@/flush"), A.priority.isSome = true) ∨
            (∃ n, (if canReplace t acc then some t else acc) = some n ∧ n.priority.isSome = true) := by
          rcases h with ⟨A, hA, hAs⟩ | ⟨n, rfl, hn⟩
          · rw [List.takeWhile_cons] at hA
            have hbt : (t.id != "@@/flush") = true := by
              simpa using hf
            simp only [hbt, if_true, List.mem_cons] at hA
            rcases hA with hAt | hA
            · right
              have hts : t.priority.isSome = true := hAt ▸ hAs
              by_cases hcr : canReplace t acc = true
              · exact ⟨t, by simp [hcr], hts⟩
              · cases acc with
                | none => simp [canReplace] at hcr
                | some n =>
                    refine ⟨n, by simp [hcr], ?_⟩
                    have hb : canReplace t (some n) = false := by
                      simpa using hcr
                    by_contra hns
                    have h1 : n.priority.isNone = true := by
                      cases hmm : n.priority <;> simp [hmm] at hns ⊢
                    unfold canReplace at hb
                    rw [hts] at hb
                    simp [h1] at hb
            · exact Or.inl ⟨A, hA, hAs⟩
          · right
            by_cases hcr : canReplace t (some n) = true
            · exact ⟨t, by simp [hcr], canReplace_some_isSome hn hcr⟩
            · exact ⟨n, by simp [hcr], hn⟩
        exact ih _ hnext

/-- blocksPriority expresses that the best candidate n can never be
displaced by a task of the given priority: against priority none nothing
null can win, and against some p the candidate already holds a numeric
priority at most p. -/
def blocksPriority : Option Int → QTask → Prop
  | none, _ => True
  | some p, n => ∃ q, n.priority = some q ∧ q ≤ p

/-- canReplace_some restates the replacement condition against an existing
best candidate. -/
lemma canReplace_some (t n : QTask) :
    canReplace t (some n) =
      ((t.priority.isSome && n.priority.isNone) || jsLtPriority t.priority n.priority) := rfl

/-- canReplace_eq_false_of_blocks: a blocked competitor does not replace the
current best candidate. -/
lemma canReplace_eq_false_of_blocks {T2 n : QTask} (h : blocksPriority T2.priority n) :
    canReplace T2 (some n) = false := by
  cases hp : T2.priority with
  | none =>
      rw [canReplace_some, hp]
      simp [jsLtPriority]
  | some p =>
      rw [hp] at h
      obtain ⟨qv, hq, hle⟩ := h
      rw [canReplace_some, hp, hq]
      simp [jsLtPriority]
      omega

/-- blocks_step: replacing the best candidate preserves blocking, because a
replacement either has a numeric priority strictly below the candidate or
happens only against a null candidate. -/
lemma blocks_step {π : Option Int} {n h : QTask} (hb : blocksPriority π n)
    (hr : canReplace h (some n) = true) : blocksPriority π h := by
  cases π with
  | none => trivial
  | some p =>
      obtain ⟨qv, hq, hle⟩ := hb
      rw [canReplace_some, Bool.or_eq_true, Bool.and_eq_true] at hr
      rcases hr with ⟨_, hnone⟩ | hlt
      · rw [hq] at hnone
        simp at hnone
      · cases hh : h.priority with
        | none => rw [hh] at hlt; simp [jsLtPriority] at hlt
        | some r =>
            rw [hh, hq] at hlt
            simp [jsLtPriority] at hlt
            exact ⟨r, hh, by omega⟩

/-- nextLoop_avoid: once the scan holds a best candidate that blocks the
priority of T2 and is not T2 itself, the scan can never return T2 provided
every later entry sharing the id of T2 is T2 itself. -/
lemma nextLoop_avoid : ∀ (l : List QTask) (n T2 : QTask),
    blocksPriority T2.priority n → n.id ≠ T2.id →
    (∀ u ∈ l, u.id = T2.id → u = T2) →
    ∀ t, nextLoop l (some n) = some t → t ≠ T2 := by
  intro l
  induction l with
  | nil =>
      intro n T2 _ hid _ t ht heq
      have hn : n = t := by simpa [nextLoop] using ht
      exact hid (by rw [hn, heq])
  | cons h rest ih =>
      intro n T2 hb hid hl t ht
      rw [nextLoop_cons] at ht
      by_cases hidh : h.id = T2.id
      · have hh : h = T2 := hl h (by simp) hidh
        have hcr : canReplace h (some n) = false := by
          rw [hh]; exact canReplace_eq_false_of_blocks hb
        simp only [hcr, Bool.false_eq_true, if_false] at ht
        by_cases hfl : (h.id == "@@/flush") = true
        · simp only [hfl, if_true] at ht
          intro heq
          have hn : n = t := by simpa using ht
          exact hid (by rw [hn, heq])
        · simp only [hfl, if_false] at ht
          exact ih n T2 hb hid (fun u hu => hl u (by simp [hu])) t ht
      · by_cases hcr : canReplace h (some n) = true
        · simp only [hcr, if_true] at ht
          by_cases hfl : (h.id == "@@/flush") = true
          · simp only [hfl, if_true] at ht
            intro heq
            have hn : h = t := by simpa using ht
            exact hidh (by rw [hn, heq])
          · simp only [hfl, if_false] at ht
            exact ih h T2 (blocks_step hb hcr) hidh
              (fun u hu => hl u (by simp [hu])) t ht
        · simp only [Bool.not_eq_true] at hcr
          simp only [hcr, Bool.false_eq_true, if_false] at ht
          by_cases hfl : (h.id == "@@/flush") = true
          · simp only [hfl, if_true] at ht
            intro heq
            have hn : n = t := by simpa using ht
            exact hid (by rw [hn, heq])
          · simp only [hfl, if_false] at ht
            exact ih n T2 hb hid (fun u hu => hl u (by simp [hu])) t ht

/-- nextLoop_stable_pre: scanning a prefix that avoids the id of T2, then
the tied competitor T1, the scan can never return T2 afterwards when T1 and
T2 carry equal priorities. -/
lemma nextLoop_stable_pre : ∀ (l1 : List QTask) (acc : Option QTask) (T1 T2 : QTask)
    (rest : List QTask),
    T1.priority = T2.priority →
    T1.id ≠ T2.id →
    (∀ n, acc = some n → n.id ≠ T2.id) →
    (∀ u ∈ l1, u.id ≠ T2.id) →
    (∀ u ∈ rest, u.id = T2.id → u = T2) →
    ∀ t, nextLoop (l1 ++ T1 :: rest) acc = some t → t ≠ T2 := by
  intro l1
  induction l1 with
  | nil =>
      intro acc T1 T2 rest hpr hid hacc _ hrest t ht
      rw [List.nil_append, nextLoop_cons] at ht
      have hstep : ∃ n', (if canReplace T1 acc then some T1 else acc) = some n' ∧
          blocksPriority T2.priority n' ∧ n'.id ≠ T2.id := by
        by_cases hcr : canReplace T1 acc = true
        · refine ⟨T1, by simp [hcr], ?_, hid⟩
          rw [← hpr]
          cases hp : T1.priority with
          | none => trivial
          | some p => exact ⟨p, hp, le_refl p⟩
        · cases acc with
          | none => simp [canReplace] at hcr
          | some n =>
              have hcf : canReplace T1 (some n) = false := by simpa using hcr
              refine ⟨n, by simp [hcf], ?_, hacc n rfl⟩
              rw [← hpr]
              cases hp : T1.priority with
              | none => trivial
              | some p =>
                  rw [canReplace_some, hp] at hcf
                  cases hq : n.priority with
                  | none => rw [hq] at hcf; simp at hcf
                  | some qv =>
                      rw [hq] at hcf
                      simp [jsLtPriority] at hcf
                      exact ⟨qv, hq, by omega⟩
      obtain ⟨n', ha, hb', hid'⟩ := hstep
      rw [ha] at ht
      by_cases hfl : (T1.id == "@@/flush") = true
      · simp only [hfl, if_true] at ht
        intro heq
        have hn : n' = t := by simpa using ht
        exact hid' (by rw [hn, heq])
      · simp only [hfl, if_false] at ht
        exact nextLoop_avoid rest n' T2 hb' hid' hrest t ht
  | cons h l1' ih =>
      intro acc T1 T2 rest hpr hid hacc hl1 hrest t ht
      rw [List.cons_append, nextLoop_cons] at ht
      have hidh : h.id ≠ T2.id := hl1 h (by simp)
      have hacc' : ∀ n', (if canReplace h acc then some h else acc) = some n' →
          n'.id ≠ T2.id := by
        intro n' hn'
        by_cases hcr : canReplace h acc = true
        · rw [if_pos hcr] at hn'
          have : h = n' := by simpa using hn'
          rw [← this]; exact hidh
        · rw [if_neg hcr] at hn'
          exact hacc n' hn'
      by_cases hfl : (h.id == "@@/flush") = true
      · simp only [hfl, if_true] at ht
        intro heq
        have := hacc' t ht
        exact this (by rw [heq])
      · simp only [hfl, if_false] at ht
        exact ih _ T1 T2 rest hpr hid hacc' (fun u hu => hl1 u (by simp [hu])) hrest t ht

/-- C1: in every queue state where a task A with a numeric priority sits
before any flush barrier, the selection rule of Queue.next never picks a
task B with null priority, so A is promoted before B regardless of
insertion order; and among tasks of equal priority the earlier-inserted one
is selected first (stability), stated for queues whose queued ids are
distinct as JavaScript Map keys are. -/
theorem queue_next_priority_selection :
    (∀ (q : Queue) (A B : QTask),
      A ∈ q.queued.takeWhile (fun u => u.id != "@@/flush") →
      A.priority.isSome = true → B.priority = none →
      q.next ≠ some B) ∧
    (∀ (q : Queue) (l1 l2 l3 : List QTask) (T1 T2 : QTask),
      q.queued = l1 ++ T1 :: (l2 ++ T2 :: l3) →
      (q.queued.map QTask.id).Nodup →
      T1.priority = T2.priority →
      q.next ≠ some T2) := by
  constructor
  · intro q A B hA hAs hBp hEq
    obtain ⟨t, ht, hts⟩ := nextLoop_numeric q.queued none (Or.inl ⟨A, hA, hAs⟩)
    have hEq' : nextLoop q.queued none = some B := hEq
    rw [ht] at hEq'
    have htB : t = B := by simpa using hEq'
    rw [htB, hBp] at hts
    simp at hts
  · intro q l1 l2 l3 T1 T2 hq hno hpr hEq
    rw [hq, List.map_append, List.map_cons] at hno
    obtain ⟨h1, h2, hdisj⟩ := List.nodup_append.mp hno
    rw [List.nodup_cons] at h2
    obtain ⟨hT1not, h3⟩ := h2
    rw [List.map_append, List.map_cons] at hT1not h3
    have hid : T1.id ≠ T2.id := by
      intro he
      exact hT1not (by rw [he]; simp)
    obtain ⟨h4, h5, hdisj2⟩ := List.nodup_append.mp h3
    rw [List.nodup_cons] at h5
    obtain ⟨hT2notl3, _⟩ := h5
    have hT2notl2 : T2.id ∉ l2.map QTask.id := by
      intro hmem
      exact hdisj2 hmem (by simp)
    have hT2notl1 : T2.id ∉ l1.map QTask.id := by
      intro hmem
      exact hdisj hmem (by simp [List.map_append])
    have hl1 : ∀ u ∈ l1, u.id ≠ T2.id := by
      intro u hu he
      exact hT2notl1 (by rw [← he]; exact List.mem_map_of_mem _ hu)
    have hrest : ∀ u ∈ l2 ++ T2 :: l3, u.id = T2.id → u = T2 := by
      intro u hu he
      rcases List.mem_append.mp hu with hu2 | hu3
      · exact absurd (by rw [← he]; exact List.mem_map_of_mem _ hu2) hT2notl2
      · rcases List.mem_cons.mp hu3 with rfl | hu3'
        · rfl
        · exact absurd (by rw [← he]; exact List.mem_map_of_mem _ hu3') hT2notl3
    have hEq' : nextLoop q.queued none = some T2 := hEq
    rw [hq] at hEq'
    exact nextLoop_stable_pre l1 none T1 T2 (l2 ++ T2 :: l3) hpr hid
      (fun n hn => Option.noConfusion hn) hl1 hrest T2 hEq' rfl

/-- taskA is a numerically prioritized example task. -/
def taskA : QTask := { id := "a", priority := some 1, fid := 0 }

/-- taskB is an example task with null priority. -/
def taskB : QTask := { id := "b", priority := none, fid := 1 }

/-- qC1a is an example queue in which taskB was inserted before taskA and no
flush barrier is present. -/
def qC1a : Queue :=
  { concurrency := 10, running := true, closed := false
    queued := [taskB, taskA], pending := []
    futures := [FutureState.unsettled, FutureState.unsettled] }

/-- taskT1 is an example task of priority 0 inserted first. -/
def taskT1 : QTask := { id := "t1", priority := some 0, fid := 0 }

/-- taskT2 is an example task of priority 0 inserted second. -/
def taskT2 : QTask := { id := "t2", priority := some 0, fid := 1 }

/-- qC1b is an example queue holding two tasks of equal priority in
insertion order. -/
def qC1b : Queue :=
  { concurrency := 10, running := true, closed := false
    queued := [taskT1, taskT2], pending := []
    futures := [FutureState.unsettled, FutureState.unsettled] }

/-- Witness for C1 at concrete inputs: with the null-priority task inserted
first, selection still refuses it while the prioritized task is queued, and
with equal priorities selection refuses the later-inserted task. -/
theorem queue_next_priority_selection_witness :
    Queue.next qC1a ≠ some taskB ∧ Queue.next qC1b ≠ some taskT2 :=
  ⟨queue_next_priority_selection.1 qC1a taskA taskB (by decide) (by decide) rfl,
   queue_next_priority_selection.2 qC1b [] [] [] taskT1 taskT2 rfl (by decide) rfl⟩

/-- nextLoop_flush_not_some: once the scan holds some best candidate that is
not the flush sentinel, it can never return a null-priority task whose id
is the flush sentinel, because such a task never wins a comparison. -/
lemma nextLoop_flush_not_some : ∀ (l : List QTask) (n t : QTask),
    t.id = "@@/flush" → t.priority = none → n.id ≠ "@@/flush" →
    nextLoop l (some n) = some t → False := by
  intro l
  induction l with
  | nil =>
      intro n t hid _ hn ht
      have : n = t := by simpa [nextLoop] using ht
      exact hn (by rw [this, hid])
  | cons h rest ih =>
      intro n t hid hp hn ht
      rw [nextLoop_cons] at ht
      by_cases hfl : (h.id == "@@/flush") = true
      · simp only [hfl, if_true] at ht
        by_cases hcr : canReplace h (some n) = true
        · simp only [hcr, if_true] at ht
          have hht : h = t := by simpa using ht
          rw [hht, canReplace_some, hp] at hcr
          simp [jsLtPriority] at hcr
        · simp only [Bool.not_eq_true] at hcr
          simp only [hcr, Bool.false_eq_true, if_false] at ht
          have : n = t := by simpa using ht
          exact hn (by rw [this, hid])
      · simp only [hfl, if_false] at ht
        by_cases hcr : canReplace h (some n) = true
        · simp only [hcr, if_true] at ht
          exact ih h t hid hp (by simpa using hfl) ht
        · simp only [Bool.not_eq_true] at hcr
          simp only [hcr, Bool.false_eq_true, if_false] at ht
          exact ih n t hid hp hn ht

/-- next_flush_is_head: Queue.next selects the null-priority flush sentinel
only when it is the very first entry of the queued map. -/
lemma next_flush_is_head (q : Queue) (t : QTask)
    (hid : t.id = "@@/flush") (hp : t.priority = none)
    (ht : q.next = some t) : q.queued.head? = some t := by
  cases hq : q.queued with
  | nil =>
      have : nextLoop q.queued none = some t := ht
      rw [hq] at this
      exact absurd this (by simp [nextLoop])
  | cons h rest =>
      have hnl : nextLoop (h :: rest) none = some t := by
        have : nextLoop q.queued none = some t := ht
        rwa [hq] at this
      rw [nextLoop_cons] at hnl
      have hcr : canReplace h none = true := rfl
      simp only [hcr, if_true] at hnl
      by_cases hfl : (h.id == "@@/flush") = true
      · simp only [hfl, if_true] at hnl
        have : h = t := by simpa using hnl
        simp [this]
      · simp only [hfl, if_false] at hnl
        exact absurd hnl (fun hc =>
          nextLoop_flush_not_some rest h t hid hp (by simpa using hfl) hc)

/-- C2: a promotion step (Queue#_dequeue) moves the null-priority flush
sentinel from queued to pending only when it is the head of the queued map,
so the flush sentinel is never promoted while some task queued before it is
still queued; the pending map is unconstrained, so it may run concurrently
with earlier tasks that were already promoted. -/
theorem flush_promotion_barrier (q : Queue) (t : QTask)
    (hid : t.id = "@@/flush") (hp : t.priority = none)
    (hmem : t ∈ (q.dequeue).pending) (hnot : t ∉ q.pending) :
    q.queued.head? = some t := by
  unfold Queue.dequeue at hmem
  by_cases hr : q.running
  · simp only [hr, Bool.not_true, Bool.false_eq_true, if_false] at hmem
    by_cases hc : q.concurrency ≤ q.pending.length
    · rw [if_pos hc] at hmem
      exact absurd hmem hnot
    · rw [if_neg hc] at hmem
      cases hn : q.next with
      | none => rw [hn] at hmem; exact absurd hmem hnot
      | some u =>
          rw [hn] at hmem
          simp only [List.mem_append, List.mem_singleton] at hmem
          rcases hmem with hmem | rfl
          · exact absurd hmem hnot
          · exact next_flush_is_head q t hid hp hn
  · simp only [Bool.not_eq_true] at hr
    simp only [hr, Bool.not_false, if_true] at hmem
    exact absurd hmem hnot

/-- flushTask is the sentinel task enqueued by Queue#flush: id is the flush
sentinel and no priority is given. -/
def flushTask : QTask := { id := "@@/flush", priority := none, fid := 2 }

/-- qC2 is an example queue whose head is the flush sentinel while an
earlier task is already pending. -/
def qC2 : Queue :=
  { concurrency := 2, running := true, closed := false
    queued := [flushTask, taskB], pending := [taskA]
    futures := [FutureState.unsettled, FutureState.unsettled, FutureState.unsettled] }

/-- Witness for C2 at a concrete input: the promotion step that moves the
flush sentinel into pending (next to an already pending earlier task) finds
it at the head of the queued map. -/
theorem flush_promotion_barrier_witness : qC2.queued.head? = some flushTask :=
  flush_promotion_barrier qC2 flushTask rfl rfl (by decide) (by decide)

/-! ### The queue invariant under push, cancel and clear -/

/-- QOp is the operation alphabet of claim Q1: push with an id and optional
priority, cancel by id, and clear. -/
inductive QOp where
  | push (id : String) (priority : Option Int)
  | cancel (id : String)
  | clear
deriving Repr

/-- applyOp runs one operation, dropping returned values. -/
def applyOp (q : Queue) : QOp → Queue
  | QOp.push id priority => (q.push id priority).1
  | QOp.cancel id => q.cancel id
  | QOp.clear => q.clear.1

/-- applyOps runs a sequence of operations from left to right. -/
def applyOps (q : Queue) : List QOp → Queue
  | [] => q
  | op :: ops => applyOps (applyOp q op) ops

/-- QueueInv is the invariant of claim Q1: the ids across the queued and
pending maps are pairwise distinct and the pending map never exceeds the
concurrency. -/
def QueueInv (q : Queue) : Prop :=
  ((q.queued ++ q.pending).map QTask.id).Nodup ∧ q.pending.length ≤ q.concurrency

/-- nextLoop_mem: the scan returns the initial accumulator or a member of
the scanned list. -/
lemma nextLoop_mem : ∀ (l : List QTask) (acc : Option QTask) (t : QTask),
    nextLoop l acc = some t → acc = some t ∨ t ∈ l := by
  intro l
  induction l with
  | nil => intro acc t ht; exact Or.inl ht
  | cons h rest ih =>
      intro acc t ht
      rw [nextLoop_cons] at ht
      by_cases hfl : (h.id == "@@/flush") = true
      · simp only [hfl, if_true] at ht
        by_cases hcr : canReplace h acc = true
        · simp only [hcr, if_true] at ht
          exact Or.inr (by simp [← Option.some.inj ht])
        · simp only [Bool.not_eq_true] at hcr
          simp only [hcr, Bool.false_eq_true, if_false] at ht
          exact Or.inl ht
      · simp only [hfl, if_false] at ht
        by_cases hcr : canReplace h acc = true
        · simp only [hcr, if_true] at ht
          rcases ih _ _ ht with hacc | hmem
          · exact Or.inr (by simp [← Option.some.inj hacc])
          · exact Or.inr (List.mem_cons_of_mem _ hmem)
        · simp only [Bool.not_eq_true] at hcr
          simp only [hcr, Bool.false_eq_true, if_false] at ht
          rcases ih _ _ ht with hacc | hmem
          · exact Or.inl hacc
          · exact Or.inr (List.mem_cons_of_mem _ hmem)

/-- next_mem: a selected task is a member of the queued map. -/
lemma next_mem {q : Queue} {t : QTask} (h : q.next = some t) : t ∈ q.queued := by
  rcases nextLoop_mem q.queued none t h with hacc | hmem
  · exact Option.noConfusion hacc
  · exact hmem

/-- mapDelete_sublist: deletion yields a sublist. -/
lemma mapDelete_sublist (id : String) (l : List QTask) : List.Sublist (mapDelete id l) l :=
  List.filter_sublist l

/-- mapDelete_id_ne: every survivor of a deletion has a different id. -/
lemma mapDelete_id_ne {id : String} {l : List QTask} {u : QTask}
    (h : u ∈ mapDelete id l) : u.id ≠ id := by
  have := List.of_mem_filter h
  simpa using this

/-- promote_nodup: moving a member of the queued map to the back of the
pending map preserves distinctness of the combined ids. -/
lemma promote_nodup : ∀ (l p : List QTask) (u : QTask), u ∈ l →
    ((l ++ p).map QTask.id).Nodup →
    ((mapDelete u.id l ++ (p ++ [u])).map QTask.id).Nodup := by
  intro l
  induction l with
  | nil => intro p u hu; exact absurd hu (List.not_mem_nil u)
  | cons h l' ih =>
      intro p u hu hno
      rw [List.cons_append, List.map_cons, List.nodup_cons] at hno
      obtain ⟨hhid, hno'⟩ := hno
      rcases List.mem_cons.mp hu with rfl | hu'
      · -- the deleted task is the head
        have hrest : mapDelete u.id (u :: l') = l' := by
          unfold mapDelete
          rw [List.filter_cons]
          simp only [bne_self_eq_false, Bool.false_eq_true, if_false]
          apply List.filter_eq_self.mpr
          intro a ha
          have : a.id ≠ u.id := by
            intro he
            exact hhid (by rw [← he]; exact List.mem_map_of_mem _ (List.mem_append_left _ ha))
          simpa using this
        rw [hrest]
        have h1 : (l' ++ (p ++ [u])).Perm (u :: (l' ++ p)) := by
          have e : l' ++ (p ++ [u]) = (l' ++ p) ++ [u] := (List.append_assoc l' p [u]).symm
          rw [e]
          exact List.perm_append_singleton u (l' ++ p)
        have hperm : ((l' ++ (p ++ [u])).map QTask.id).Perm
            (u.id :: (l' ++ p).map QTask.id) := by
          simpa using h1.map QTask.id
        rw [hperm.nodup_iff]
        exact List.nodup_cons.mpr ⟨hhid, hno'⟩
      · -- the deleted task sits in the tail
        have hne : h.id ≠ u.id := by
          intro he
          exact hhid (by rw [he]; exact List.mem_map_of_mem _ (List.mem_append_left _ hu'))
        have hstep : mapDelete u.id (h :: l') = h :: mapDelete u.id l' := by
          unfold mapDelete
          rw [List.filter_cons]
          simp [hne]
        rw [hstep, List.cons_append, List.map_cons, List.nodup_cons]
        refine ⟨?_, ih p u hu' hno'⟩
        intro hmem
        rw [List.map_append] at hmem
        rcases List.mem_append.mp hmem with hm1 | hm2
        · obtain ⟨v, hv, he⟩ := List.mem_map.mp hm1
          refine hhid ?_
          rw [← he]
          exact List.mem_map_of_mem _
            (List.mem_append_left _ ((mapDelete_sublist u.id l').subset hv))
        · rw [List.map_append] at hm2
          rcases List.mem_append.mp hm2 with hm2a | hm2b
          · obtain ⟨v, hv, he⟩ := List.mem_map.mp hm2a
            refine hhid ?_
            rw [← he]
            exact List.mem_map_of_mem _ (List.mem_append_right _ hv)
          · have : h.id = u.id := by simpa using hm2b
            exact hne this

/-- cancel_inv: Queue#cancel preserves the invariant. -/
lemma cancel_inv (q : Queue) (id : String) (h : QueueInv q) : QueueInv (q.cancel id) := by
  obtain ⟨hno, hlen⟩ := h
  constructor
  · have hsub : List.Sublist
        ((q.cancel id).queued ++ (q.cancel id).pending) (q.queued ++ q.pending) :=
      List.Sublist.append (mapDelete_sublist id q.queued) (mapDelete_sublist id q.pending)
    exact List.Nodup.sublist (hsub.map QTask.id) hno
  · exact le_trans (List.length_filter_le _ _) hlen

/-- mapSet_append: setting a key absent from the map appends the entry. -/
lemma mapSet_append {t : QTask} {l : List QTask} (h : ∀ u ∈ l, u.id ≠ t.id) :
    mapSet t l = l ++ [t] := by
  unfold mapSet
  rw [if_neg]
  intro hc
  obtain ⟨u, hu, he⟩ := List.any_eq_true.mp hc
  exact h u hu (by simpa using he)

/-- dequeue_inv: one scheduler step preserves the invariant, promoting only
below capacity. -/
lemma dequeue_inv (q : Queue) (h : QueueInv q) : QueueInv q.dequeue := by
  obtain ⟨hno, hlen⟩ := h
  unfold Queue.dequeue
  by_cases hr : q.running
  · simp only [hr, Bool.not_true, Bool.false_eq_true, if_false]
    by_cases hc : q.concurrency ≤ q.pending.length
    · rw [if_pos hc]
      exact ⟨hno, hlen⟩
    · rw [if_neg hc]
      cases hn : q.next with
      | none => exact ⟨hno, hlen⟩
      | some u =>
          refine ⟨promote_nodup q.queued q.pending u (next_mem hn) hno, ?_⟩
          show (q.pending ++ [u]).length ≤ q.concurrency
          rw [List.length_append, List.length_singleton]
          omega
  · simp only [Bool.not_eq_true] at hr
    simp only [hr, Bool.not_false, if_true]
    exact ⟨hno, hlen⟩

/-- push_fst restates the state component of Queue.push. -/
lemma push_fst (q : Queue) (id : String) (prio : Option Int) :
    (q.push id prio).1 =
      if q.closed && !(jsStartsWith id "@@/") then q
      else Queue.dequeue
        { q.cancel id with
          queued := mapSet
            { id := id, priority := prio, fid := (q.cancel id).futures.length }
            (q.cancel id).queued
          futures := (q.cancel id).futures ++ [FutureState.unsettled] } := by
  unfold Queue.push
  by_cases hcl : (q.closed && !(jsStartsWith id "@@/")) = true
  · simp [hcl]
  · simp [hcl]

/-- push_inv: Queue#push preserves the invariant. -/
lemma push_inv (q : Queue) (id : String) (prio : Option Int) (h : QueueInv q) :
    QueueInv (q.push id prio).1 := by
  rw [push_fst]
  split_ifs with hcl
  · exact h
  · apply dequeue_inv
    obtain ⟨hno1, hlen1⟩ := cancel_inv q id h
    have hgoneQ : ∀ u ∈ (q.cancel id).queued, u.id ≠ id := fun u hu => mapDelete_id_ne hu
    have hgoneP : ∀ u ∈ (q.cancel id).pending, u.id ≠ id := fun u hu => mapDelete_id_ne hu
    have hset : mapSet
        { id := id, priority := prio, fid := (q.cancel id).futures.length }
        (q.cancel id).queued = (q.cancel id).queued ++
          [{ id := id, priority := prio, fid := (q.cancel id).futures.length }] :=
      mapSet_append (fun u hu => hgoneQ u hu)
    constructor
    · show (((mapSet _ (q.cancel id).queued) ++ (q.cancel id).pending).map QTask.id).Nodup
      rw [hset, List.append_assoc]
      have hperm : List.Perm
          ((q.cancel id).queued ++
            ([{ id := id, priority := prio, fid := (q.cancel id).futures.length }] ++
              (q.cancel id).pending))
          ({ id := id, priority := prio, fid := (q.cancel id).futures.length } ::
            ((q.cancel id).queued ++ (q.cancel id).pending)) := List.perm_middle
      rw [(hperm.map QTask.id).nodup_iff]
      rw [List.map_cons, List.nodup_cons]
      refine ⟨?_, hno1⟩
      intro hmem
      rw [List.map_append] at hmem
      rcases List.mem_append.mp hmem with hm | hm
      · obtain ⟨v, hv, he⟩ := List.mem_map.mp hm
        exact hgoneQ v hv he
      · obtain ⟨v, hv, he⟩ := List.mem_map.mp hm
        exact hgoneP v hv he
    · exact hlen1

/-- clear_inv: Queue#clear preserves the invariant. -/
lemma clear_inv (q : Queue) (h : QueueInv q) : QueueInv q.clear.1 := by
  obtain ⟨hno, hlen⟩ := h
  refine ⟨?_, hlen⟩
  show (([] ++ q.pending).map QTask.id).Nodup
  have hsub : List.Sublist ([] ++ q.pending) (q.queued ++ q.pending) :=
    List.Sublist.append (List.nil_sublist _) (List.Sublist.refl _)
  exact List.Nodup.sublist (hsub.map QTask.id) hno

/-- applyOp_inv: every operation of the alphabet preserves the invariant. -/
lemma applyOp_inv (q : Queue) (op : QOp) (h : QueueInv q) : QueueInv (applyOp q op) := by
  cases op with
  | push id prio => exact push_inv q id prio h
  | cancel id => exact cancel_inv q id h
  | clear => exact clear_inv q h

/-- C3: starting from a fresh queue, after any sequence of push, cancel and
clear operations (hence at every point along any such sequence) no task id
appears in both the queued and pending maps and the pending map holds at
most concurrency tasks. -/
theorem queue_inv_push_cancel_clear (c : Nat) (ops : List QOp) :
    QueueInv (applyOps (Queue.init c) ops) := by
  have hgen : ∀ (ops : List QOp) (q : Queue), QueueInv q → QueueInv (applyOps q ops) := by
    intro ops
    induction ops with
    | nil => intro q h; exact h
    | cons op rest ih => intro q h; exact ih (applyOp q op) (applyOp_inv q op h)
  refine hgen ops (Queue.init c) ⟨?_, ?_⟩
  · show ((([] : List QTask) ++ []).map QTask.id).Nodup
    simp
  · show List.length [] ≤ c
    simp

/-! ### Cancellation and the task promise -/

/-- cancel_futures restates the futures ledger produced by Queue#cancel. -/
lemma cancel_futures (q : Queue) (id : String) :
    (q.cancel id).futures =
      (match q.pending.find? (fun t => t.id == id) with
       | some t => settleFuture q.futures t.fid FutureState.rejectedCanceled
       | none => q.futures) := rfl

/-- settleFuture_get: settling an unsettled future stores the new state. -/
lemma settleFuture_get : ∀ (fs : List FutureState) (i : Nat) (v : FutureState),
    fs.get? i = some FutureState.unsettled →
    (settleFuture fs i v).get? i = some v := by
  intro fs
  induction fs with
  | nil => intro i v h; simp at h
  | cons a fs ih =>
      intro i v h
      unfold settleFuture
      rw [h]
      cases i with
      | zero => simp
      | succ n =>
          simp only [List.get?_cons_succ] at h ⊢
          rw [List.set_cons_succ]
          simp only [List.get?_cons_succ]
          have := ih n v h
          unfold settleFuture at this
          rw [h] at this
          exact this

/-- qC4 is the queue obtained by pushing task a and then task b on a fresh
queue of concurrency one: a is promoted to pending and b stays queued. -/
def qC4 : Queue := (((Queue.init 1).push "a" none).1.push "b" none).1

/-- Counterexample to C4: on a concurrency-one queue holding pending a and
queued b, cancel of b removes it from the queue but the promise returned
for b (future index 1) stays unsettled, so it does not reject with a
canceled failure. -/
theorem cancel_queued_promise_never_settles :
    (((Queue.init 1).push "a" none).1.push "b" none).2 = some 1 ∧
    Queue.has qC4 "b" = true ∧
    Queue.has (qC4.cancel "b") "b" = false ∧
    (qC4.cancel "b").futures.get? 1 = some FutureState.unsettled := by decide

/-- C4 amended: cancel(id) removes id from both the queued and pending
maps; when the task is pending its promise rejects with the canceled
failure; when no task with the id is pending the futures ledger is
untouched, so the promise of a task that was only queued never settles; and
a push (not dropped by the closed check) leaves at most one task with the
pushed id in the queue, so the new callback runs at most once. -/
theorem cancel_removes_both_and_rejects_pending (q : Queue) (id : String)
    (prio : Option Int) :
    Queue.has (q.cancel id) id = false ∧
    (∀ t, q.pending.find? (fun u => u.id == id) = some t →
        q.futures.get? t.fid = some FutureState.unsettled →
        (q.cancel id).futures.get? t.fid = some FutureState.rejectedCanceled) ∧
    (q.pending.find? (fun u => u.id == id) = none →
        (q.cancel id).futures = q.futures) ∧
    (QueueInv q →
        (((q.push id prio).1.queued ++ (q.push id prio).1.pending).map QTask.id).count id ≤ 1) := by
  refine ⟨?_, ?_, ?_, ?_⟩
  · rw [Bool.eq_false_iff]
    intro hc
    unfold Queue.has at hc
    rw [Bool.or_eq_true] at hc
    rcases hc with hc | hc
    · obtain ⟨u, hu, he⟩ := List.any_eq_true.mp hc
      exact mapDelete_id_ne hu (by simpa using he)
    · obtain ⟨u, hu, he⟩ := List.any_eq_true.mp hc
      exact mapDelete_id_ne hu (by simpa using he)
  · intro t hfind hget
    rw [cancel_futures, hfind]
    exact settleFuture_get q.futures t.fid FutureState.rejectedCanceled hget
  · intro hfind
    rw [cancel_futures, hfind]
  · intro hinv
    obtain ⟨hno, _⟩ := push_inv q id prio hinv
    exact List.nodup_iff_count_le_one.mp hno id

/-- qC4w is an example queue with a single pending task a whose promise is
unsettled. -/
def qC4w : Queue :=
  { concurrency := 2, running := true, closed := false
    queued := [], pending := [{ id := "a", priority := none, fid := 0 }]
    futures := [FutureState.unsettled] }

/-- Witness for the amended C4 at concrete inputs: cancel of the pending
task a removes it and rejects its promise as canceled, cancel of an absent
id leaves the ledger alone, and a fresh push leaves one task with its id. -/
theorem cancel_removes_both_and_rejects_pending_witness :
    Queue.has (qC4w.cancel "a") "a" = false ∧
    (qC4w.cancel "a").futures.get? 0 = some FutureState.rejectedCanceled ∧
    (qC4w.cancel "b").futures = qC4w.futures ∧
    (((qC4w.push "c" none).1.queued ++ (qC4w.push "c" none).1.pending).map QTask.id).count "c" ≤ 1 :=
  ⟨(cancel_removes_both_and_rejects_pending qC4w "a" none).1,
   (cancel_removes_both_and_rejects_pending qC4w "a" none).2.1
     { id := "a", priority := none, fid := 0 } (by decide) (by decide),
   (cancel_removes_both_and_rejects_pending qC4w "b" none).2.2.1 (by decide),
   (cancel_removes_both_and_rejects_pending qC4w "c" none).2.2.2 ⟨by decide, by decide⟩⟩

/-! ### The closed-queue rejection -/

/-- push_snd restates the returned value of Queue.push. -/
lemma push_snd (q : Queue) (id : String) (prio : Option Int) :
    (q.push id prio).2 =
      if q.closed && !(jsStartsWith id "@@/") then none
      else some (q.cancel id).futures.length := by
  unfold Queue.push
  by_cases hcl : (q.closed && !(jsStartsWith id "@@/")) = true
  · simp [hcl]
  · simp [hcl]

/-- any_filter_ne: filtering out entries of one id does not change whether a
different id occurs. -/
lemma any_filter_ne (l : List QTask) (uid id0 : String) (hne : uid ≠ id0) :
    ((l.filter (fun t => t.id != uid)).any (fun t => t.id == id0)) =
      (l.any (fun t => t.id == id0)) := by
  induction l with
  | nil => simp
  | cons a l ih =>
      rw [List.filter_cons]
      by_cases ha : (a.id != uid) = true
      · rw [if_pos ha]
        simp only [List.any_cons, ih]
      · rw [if_neg ha]
        have haid : a.id = uid := by simpa using ha
        have hfalse : (a.id == id0) = false := by
          rw [haid]
          exact beq_eq_false_iff_ne.mpr hne
        simp only [List.any_cons, hfalse, Bool.false_or, ih]

/-- dequeue_has: a scheduler step moves a task between the maps but does not
change which ids the queue holds. -/
lemma dequeue_has (q : Queue) (id0 : String) :
    Queue.has q.dequeue id0 = Queue.has q id0 := by
  unfold Queue.dequeue
  by_cases hr : q.running
  · simp only [hr, Bool.not_true, Bool.false_eq_true, if_false]
    by_cases hc : q.concurrency ≤ q.pending.length
    · rw [if_pos hc]
    · rw [if_neg hc]
      cases hn : q.next with
      | none => rfl
      | some u =>
          show ((mapDelete u.id q.queued).any (fun t => t.id == id0) ||
              (q.pending ++ [u]).any (fun t => t.id == id0)) = Queue.has q id0
          unfold Queue.has
          by_cases hid : u.id = id0
          · have hql : q.queued.any (fun t => t.id == id0) = true :=
              List.any_eq_true.mpr ⟨u, next_mem hn, by simp [hid]⟩
            have hpr : (q.pending ++ [u]).any (fun t => t.id == id0) = true :=
              List.any_eq_true.mpr ⟨u, by simp, by simp [hid]⟩
            rw [hql, hpr]
            simp
          · unfold mapDelete
            rw [any_filter_ne q.queued u.id id0 hid]
            have hfalse : (u.id == id0) = false := beq_eq_false_iff_ne.mpr hid
            simp [List.any_append, hfalse]
  · simp only [Bool.not_eq_true] at hr
    simp only [hr, Bool.not_false, if_true]

/-- mapSet_mem_id: after a set, the map holds the entry id. -/
lemma mapSet_mem_id (t : QTask) (l : List QTask) :
    (mapSet t l).any (fun u => u.id == t.id) = true := by
  unfold mapSet
  by_cases hc : l.any (fun u => u.id == t.id) = true
  · rw [if_pos hc]
    obtain ⟨u, hu, he⟩ := List.any_eq_true.mp hc
    exact List.any_eq_true.mpr ⟨t, List.mem_map.mpr ⟨u, hu, by rw [if_pos he]⟩, by simp⟩
  · rw [if_neg hc]
    exact List.any_eq_true.mpr ⟨t, by simp, by simp⟩

/-- qClosed is a closed example queue. -/
def qClosed : Queue := { Queue.init 1 with closed := true }

/-- Counterexample to C5: on a closed queue a push whose id is build/create,
snapshot/home or upload/home is silently dropped (undefined is returned and
nothing is enqueued), because only ids beginning with the characters @@/
are immune to the closed-queue rejection. -/
theorem closed_push_drops_reserved_ids :
    qClosed.push "build/create" (some 0) = (qClosed, none) ∧
    qClosed.push "snapshot/home" none = (qClosed, none) ∧
    qClosed.push "upload/home" none = (qClosed, none) ∧
    Queue.has (qClosed.push "build/create" (some 0)).1 "build/create" = false :=
  ⟨rfl, rfl, rfl, rfl⟩

/-- C5 amended: on a closed queue, exactly the ids starting with @@/ are
immune to the closed-queue rejection: such a push enqueues its task and
returns a future, while a push with any other id (build/create,
snapshot/<name> and upload/<name> included) returns undefined and leaves
the queue unchanged. -/
theorem closed_push_sentinel_immunity (q : Queue) (id : String) (prio : Option Int)
    (hclosed : q.closed = true) :
    (jsStartsWith id "@@/" = true →
      (q.push id prio).2 = some (q.cancel id).futures.length ∧
      Queue.has (q.push id prio).1 id = true) ∧
    (jsStartsWith id "@@/" = false →
      q.push id prio = (q, none)) := by
  constructor
  · intro hsw
    have hcl : (q.closed && !(jsStartsWith id "@@/")) = false := by
      rw [hclosed, hsw]
      rfl
    constructor
    · rw [push_snd, hcl]
      simp
    · rw [push_fst, hcl]
      simp only [Bool.false_eq_true, if_false]
      rw [dequeue_has]
      show ((mapSet { id := id, priority := prio, fid := (q.cancel id).futures.length }
          (q.cancel id).queued).any (fun u => u.id == id) ||
          (q.cancel id).pending.any (fun u => u.id == id)) = true
      rw [mapSet_mem_id { id := id, priority := prio, fid := (q.cancel id).futures.length }
        (q.cancel id).queued]
      simp
  · intro hsw
    have hcl : (q.closed && !(jsStartsWith id "@@/")) = true := by
      rw [hclosed, hsw]
      rfl
    unfold Queue.push
    rw [if_pos hcl]

/-- Witness for the amended C5 at concrete inputs: on a closed queue a push
of the flush sentinel id returns a future and enqueues the task, while a
push of an upload id is dropped and changes nothing. -/
theorem closed_push_sentinel_immunity_witness :
    ((qClosed.push "@@/flush" none).2 = some 0 ∧
      Queue.has (qClosed.push "@@/flush" none).1 "@@/flush" = true) ∧
    qClosed.push "upload/a" none = (qClosed, none) :=
  ⟨(closed_push_sentinel_immunity qClosed "@@/flush" none rfl).1 (by decide),
   (closed_push_sentinel_immunity qClosed "upload/a" none rfl).2 (by decide)⟩

/-! ### clear and the flush progress callback -/

/-- qC6 is an example queue with one queued task and no pending task. -/
def qC6 : Queue :=
  { concurrency := 10, running := true, closed := false
    queued := [taskA], pending := []
    futures := [FutureState.unsettled] }

/-- Counterexample to C6: on a queue of total size one (one queued, none
pending) clear returns 0, not the prior total size 1, because the source
computes this.size only after the queued map was emptied. -/
theorem clear_return_differs_from_prior_size :
    Queue.size qC6 = 1 ∧ qC6.clear.2 = 0 ∧ qC6.clear.2 ≠ Queue.size qC6 :=
  ⟨rfl, rfl, by decide⟩

/-- C6 amended: clear empties only the queued map, leaves the pending map
(and every other field) unchanged, and returns the size measured after
clearing, which is the number of pending tasks. -/
theorem clear_empties_queued_returns_pending_count (q : Queue) :
    q.clear.1.queued = [] ∧ q.clear.1.pending = q.pending ∧
    q.clear.1.running = q.running ∧ q.clear.1.closed = q.closed ∧
    q.clear.1.futures = q.futures ∧
    q.clear.2 = q.pending.length := by
  refine ⟨rfl, rfl, rfl, rfl, rfl, ?_⟩
  show Queue.size { q with queued := [] } = q.pending.length
  unfold Queue.size
  simp

/-- qC7 is an example queue in which the flush sentinel is pending next to
another pending task. -/
def qC7 : Queue :=
  { concurrency := 2, running := true, closed := false
    queued := [], pending := [flushTask, taskA]
    futures := [] }

/-- Counterexample to C7: with the flush sentinel pending and two pending
tasks in total, one idle poll passes 1 to the callback, not the claimed
pendingCount + 0 = 2: an absent queued index yields -1 which is not reset
to 0 when the sentinel is pending. -/
theorem flush_poll_pending_discrepancy :
    flushPollValue qC7 = 1 ∧ (qC7.pending.length : Int) + 0 = 2 ∧
    flushPollValue qC7 ≠ (qC7.pending.length : Int) + 0 := by
  refine ⟨by decide, by decide, by decide⟩

/-- C7 amended: each idle poll hands the flush callback pend + left, where
left is the 0-based index of the flush sentinel among the queued keys when
it is queued, -1 when it is not queued but pending, and 0 when it is in
neither map. -/
theorem flush_poll_value_cases (q : Queue) :
    (∀ i : Int, jsIndexOf (q.queued.map (fun t => t.id)) "@@/flush" = i → i ≠ -1 →
      flushPollValue q = (q.pending.length : Int) + i) ∧
    (jsIndexOf (q.queued.map (fun t => t.id)) "@@/flush" = -1 →
      q.pending.any (fun t => t.id == "@@/flush") = true →
      flushPollValue q = (q.pending.length : Int) - 1) ∧
    (jsIndexOf (q.queued.map (fun t => t.id)) "@@/flush" = -1 →
      q.pending.any (fun t => t.id == "@@/flush") = false →
      flushPollValue q = (q.pending.length : Int)) := by
  refine ⟨?_, ?_, ?_⟩
  · intro i hidx hne
    unfold flushPollValue flushPollLeft
    simp only [hidx]
    rw [if_neg]
    intro hcond
    rw [Bool.and_eq_true] at hcond
    exact hne (by simpa using hcond.1)
  · intro hidx hany
    unfold flushPollValue flushPollLeft
    simp only [hidx, hany]
    rw [if_neg]
    · omega
    · simp
  · intro hidx hany
    unfold flushPollValue flushPollLeft
    simp only [hidx, hany]
    rw [if_pos]
    · omega
    · simp

/-- qC7a is an example queue in which the flush sentinel heads the queued
map while one other task is pending. -/
def qC7a : Queue :=
  { concurrency := 1, running := true, closed := false
    queued := [flushTask], pending := [taskA]
    futures := [] }

/-- qC7b is an example queue without any flush sentinel. -/
def qC7b : Queue :=
  { concurrency := 1, running := true, closed := false
    queued := [], pending := [taskA]
    futures := [] }

/-- Witness for the amended C7 at concrete inputs: queued sentinel at index
0 gives pend + 0, a pending-only sentinel gives pend - 1, and no sentinel
gives pend. -/
theorem flush_poll_value_cases_witness :
    flushPollValue qC7a = (qC7a.pending.length : Int) + 0 ∧
    flushPollValue qC7 = (qC7.pending.length : Int) - 1 ∧
    flushPollValue qC7b = (qC7b.pending.length : Int) :=
  ⟨(flush_poll_value_cases qC7a).1 0 (by decide) (by decide),
   (flush_poll_value_cases qC7).2.1 (by decide) (by decide),
   (flush_poll_value_cases qC7b).2.2 (by decide) (by decide)⟩

/-! ### The Percy core: snapshot guard -/

/-- ReadyState embeds Percy#readyState: null, 0, 1, 2, 3 in the source. -/
inductive ReadyState where
  | notStarted
  | starting
  | running
  | stopping
  | stopped
deriving DecidableEq, Repr

/-- Build embeds the build record of the Percy instance.  The error field
holds a non-empty error message when set, so the JavaScript truthiness test
this.build?.error is embedded as isSome. -/
structure Build where
  id : Option String
  number : Option Nat
  url : Option String
  error : Option String
  failed : Bool
deriving DecidableEq, Repr

/-- PercyState embeds the parts of the Percy instance the snapshot guard
touches: the ready state, the optional build record, and the two queues. -/
structure PercyState where
  readyState : ReadyState
  build : Option Build
  snapshots : Queue
  uploads : Queue
deriving Repr

/-- Percy.cancelSnapshot embeds Percy#_cancelSnapshot for a snapshot without
additional snapshots: cancel snapshot/<name> on the snapshots queue and
upload/<name> on the uploads queue. -/
def Percy.cancelSnapshot (st : PercyState) (name : String) : PercyState :=
  { st with
    snapshots := st.snapshots.cancel ("snapshot/" ++ name)
    uploads := st.uploads.cancel ("upload/" ++ name) }

/-- Percy.takeSnapshot embeds Percy#_takeSnapshot for a snapshot without
additional snapshots: cancel any task with the same name, then push a
snapshot/<name> task (no priority) onto the snapshots queue. -/
def Percy.takeSnapshot (st : PercyState) (name : String) : PercyState :=
  let st1 := Percy.cancelSnapshot st name
  { st1 with snapshots := (st1.snapshots.push ("snapshot/" ++ name) none).1 }

/-- Percy.snapshot embeds the guard and the enqueue effect of Percy#snapshot:
the method throws Not running unless readyState is 1, then throws the build
error when build.error is set, and only then proceeds.  Option validation,
array recursion, the optional static server and gatherSnapshots are
external collaborators; the gathered argument stands for the list of
snapshot names gatherSnapshots produced, each of which is scheduled through
Percy#_takeSnapshot.  The first component is the thrown error, if any. -/
def Percy.snapshot (st : PercyState) (gathered : List String) :
    Option String × PercyState :=
  if st.readyState ≠ ReadyState.running then (some "Not running", st)
  else if (st.build.bind Build.error).isSome then (st.build.bind Build.error, st)
  else (none, gathered.foldl Percy.takeSnapshot st)

/-- C8: Percy#snapshot rejects whenever readyState is not 1 (running) or
build.error is set, for every options value, and in that case no snapshot
task is enqueued: the whole state is returned unchanged. -/
theorem percy_snapshot_guard (st : PercyState) (gathered : List String)
    (h : st.readyState ≠ ReadyState.running ∨ (st.build.bind Build.error).isSome = true) :
    (Percy.snapshot st gathered).1.isSome = true ∧
    (Percy.snapshot st gathered).2 = st := by
  unfold Percy.snapshot
  by_cases hrs : st.readyState ≠ ReadyState.running
  · rw [if_pos hrs]
    exact ⟨rfl, rfl⟩
  · rw [if_neg hrs]
    have hb : (st.build.bind Build.error).isSome = true := by
      rcases h with h | h
      · exact absurd h hrs
      · exact h
    rw [if_pos hb]
    exact ⟨hb, rfl⟩

/-- percyStopped is an example instance that was stopped. -/
def percyStopped : PercyState :=
  { readyState := ReadyState.stopped, build := none
    snapshots := Queue.init 10, uploads := Queue.init 10 }

/-- percyBuildFailed is an example running instance whose build carries an
error. -/
def percyBuildFailed : PercyState :=
  { readyState := ReadyState.running
    build := some { id := some "1", number := some 1, url := some "u"
                    error := some "Failed to create build", failed := false }
    snapshots := Queue.init 10, uploads := Queue.init 10 }

/-- Witness for C8 at concrete inputs: a stopped instance and a running
instance with a build error both reject a snapshot call and keep their
state. -/
theorem percy_snapshot_guard_witness :
    ((Percy.snapshot percyStopped ["home"]).1.isSome = true ∧
      (Percy.snapshot percyStopped ["home"]).2 = percyStopped) ∧
    ((Percy.snapshot percyBuildFailed ["home"]).1.isSome = true ∧
      (Percy.snapshot percyBuildFailed ["home"]).2 = percyBuildFailed) :=
  ⟨percy_snapshot_guard percyStopped ["home"] (Or.inl (by decide)),
   percy_snapshot_guard percyBuildFailed ["home"] (Or.inr (by decide))⟩

/-! ### The logger: namespaces, filtering and the in-memory store -/

/-- LogLevel embeds the LOG_LEVELS table of the logger: debug 0, info 1,
warn 2, error 3.  With this enumeration LOG_LEVELS[level] != null always
holds. -/
inductive LogLevel where
  | debug
  | info
  | warn
  | error
deriving DecidableEq, Repr

/-- LogLevel.toNat is the numeric rank from the LOG_LEVELS table. -/
def LogLevel.toNat : LogLevel → Nat
  | LogLevel.debug => 0
  | LogLevel.info => 1
  | LogLevel.warn => 2
  | LogLevel.error => 3

/-- NsPat is one element of a namespace pattern, the regular expression the
logger builds from one debug token: a literal character, the regex dot, the
lazy wildcard produced from an asterisk, and the optional colon produced by
the colon-asterisk form.  Regex metacharacters other than the dot are not
produced by realistic debug tokens and are treated literally. -/
inductive NsPat where
  | lit (c : Char)
  | anyChar
  | anySeq
  | optColon
deriving DecidableEq, Repr

/-- parseNs translates one debug token the way PercyLogger#debug rewrites
it into a regular expression: a colon-asterisk becomes an optional colon
followed by a lazy wildcard, a bare asterisk becomes a lazy wildcard, and a
dot is the regex any-character. -/
def parseNs : List Char → List NsPat
  | [] => []
  | ':' :: '*' :: rest => NsPat.optColon :: NsPat.anySeq :: parseNs rest
  | '*' :: rest => NsPat.anySeq :: parseNs rest
  | '.' :: rest => NsPat.anyChar :: parseNs rest
  | c :: rest => NsPat.lit c :: parseNs rest

/-- tailsList lists a character list together with all its suffixes. -/
def tailsList : List Char → List (List Char)
  | [] => [[]]
  | c :: cs => (c :: cs) :: tailsList cs

/-- nsMatch decides the anchored match of a namespace pattern against a
debug string: the lazy wildcard matches when the remaining pattern matches
some suffix (laziness does not affect whether an anchored match exists). -/
def nsMatch : List NsPat → List Char → Bool
  | [], ds => ds.isEmpty
  | NsPat.lit c :: ps, ds =>
      match ds with
      | d :: ds' => c == d && nsMatch ps ds'
      | [] => false
  | NsPat.anyChar :: ps, ds =>
      match ds with
      | _ :: ds' => nsMatch ps ds'
      | [] => false
  | NsPat.optColon :: ps, ds =>
      nsMatch ps ds ||
        (match ds with
         | ':' :: ds' => nsMatch ps ds'
         | _ => false)
  | NsPat.anySeq :: ps, ds => (tailsList ds).any (fun suffix => nsMatch ps suffix)

/-- nsTest is the test function of the regular expression built from one
debug token, anchored on both sides as the source wraps the pattern. -/
def nsTest (tok : String) : String → Bool :=
  fun s => nsMatch (parseNs tok.toList) s.toList

/-- Namespaces embeds this.namespaces of the logger.  The string field
records what the source stores there: the raw namespaces string on the
early-return path (and before tokenizing), but the token array when the
reduce rebuilds the object, because the local variable was reassigned to
the split array before seeding the accumulator. -/
structure Namespaces where
  string : Option (String ⊕ List String)
  include' : List (String → Bool)
  exclude : List (String → Bool)

/-- LogEntry embeds one stored log entry. -/
structure LogEntry where
  debug : String
  level : LogLevel
  message : String
  meta : List (String × String)
  timestamp : Nat

/-- LoggerState embeds the mutable state of the PercyLogger singleton.  The
socket field is the readyState of an attached remote socket (none when no
socket is attached), and the tuple in the progress field is the message and
persist flag of this dot underscore progress. -/
structure LoggerState where
  level : LogLevel
  namespaces : Namespaces
  messages : List LogEntry
  deprecations : List String
  lastlog : Option Nat
  socket : Option Nat
  isTTY : Bool
  progressLine : Option (String × Bool)

/-- PercyLogger.isRemote embeds the isRemote getter: a socket is attached
and its readyState is 1. -/
def PercyLogger.isRemote (st : LoggerState) : Bool :=
  st.socket == some 1

/-- PercyLogger.shouldLog embeds shouldLog: a known level at least the
current level, no exclude regex matches the debug group, and some include
regex matches it. -/
def PercyLogger.shouldLog (st : LoggerState) (debug : String) (level : LogLevel) : Bool :=
  decide (st.level.toNat ≤ level.toNat)
    && !(st.namespaces.exclude.any (fun ns => ns debug))
    && (st.namespaces.include'.any (fun ns => ns debug))

/-- colorize embeds the per-line ANSI wrapping of the colorize helper. -/
def colorize (code : String) (s : String) : String :=
  String.intercalate "\n" ((s.splitOn "\n").map
    (fun line => "\u001b[" ++ code ++ line ++ "\u001b[39m"))

/-- PercyLogger.format embeds the full-arity format method: the percy label
(magenta) gains the debug group and a grey elapsed suffix at debug level;
errors are red and warnings yellow.  The URL highlighting inside info and
debug messages is not modelled; no claim depends on the message bytes. -/
def PercyLogger.format (st : LoggerState) (debug : Option String)
    (level : Option LogLevel) (message : String) (elapsed : Option Nat) : String :=
  let label := "percy"
  let label :=
    if st.level = LogLevel.debug then
      match debug with
      | some d => label ++ ":" ++ d
      | none => label
    else label
  let suffix :=
    if st.level = LogLevel.debug then
      match elapsed with
      | some e => " " ++ colorize "90m" ("(" ++ toString e ++ "ms)")
      | none => ""
    else ""
  let message :=
    match level with
    | some LogLevel.error => colorize "91m" message
    | some LogLevel.warn => colorize "93m" message
    | _ => message
  "[" ++ colorize "95m" label ++ "] " ++ message ++ suffix

/-- StdStream names the two standard output streams. -/
inductive StdStream where
  | stdout
  | stderr
deriving DecidableEq, Repr

/-- PercyLogger.write embeds the write method: the formatted line goes to
stdout for info and to stderr otherwise; an active progress line is redrawn
afterwards when persistent on a TTY and dropped when not persistent.  The
cursor movements on a TTY are control calls, not byte writes modelled
here. -/
def PercyLogger.write (st : LoggerState) (level : LogLevel) (message : String) :
    LoggerState × List (StdStream × String) :=
  let progress := st.isTTY && st.progressLine.isSome
  let main : List (StdStream × String) :=
    [((if level = LogLevel.info then StdStream.stdout else StdStream.stderr), message ++ "\n")]
  match st.progressLine with
  | some (pmsg, persist) =>
      if persist then
        (st, main ++ (if progress then [(StdStream.stdout, pmsg)] else []))
      else
        ({ st with progressLine := none }, main)
  | none => (st, main)

/-- PercyLogger.log embeds the log method for string messages (the error
serialization branch concerns error objects).  With a ready socket the call
is forwarded there and nothing touches the store or stdio; otherwise the
entry is appended to the in-memory store unconditionally and the formatted
line is written only when shouldLog allows it, updating the elapsed-time
bookkeeping.  The components are the new state, the stdio writes, and the
socket sends. -/
def PercyLogger.log (st : LoggerState) (debug : String) (level : LogLevel)
    (message : String) (meta : List (String × String)) (timestamp : Nat) :
    LoggerState × List (StdStream × String) × List (String × LogLevel × String) :=
  if PercyLogger.isRemote st then
    (st, [], [(debug, level, message)])
  else
    let entry : LogEntry :=
      { debug := debug, level := level, message := message
        meta := meta, timestamp := timestamp }
    let st1 := { st with messages := st.messages ++ [entry] }
    if PercyLogger.shouldLog st1 debug level then
      let elapsed := timestamp - (st1.lastlog.getD timestamp)
      let formatted := PercyLogger.format st1 (some debug) (some level) message (some elapsed)
      let res := PercyLogger.write st1 level formatted
      ({ res.1 with lastlog := some timestamp }, res.2, [])
    else (st1, [], [])

/-- C9: a log call while no remote socket is attached appends its entry to
the in-memory store unconditionally; when the namespace filter rejects the
debug group (no include regex matches it, or some exclude regex matches
it) or the level is below the current level, stdout and stderr receive
nothing. -/
theorem log_filtered_keeps_entry (st : LoggerState) (debug : String) (level : LogLevel)
    (message : String) (meta : List (String × String)) (timestamp : Nat)
    (hsock : st.socket = none)
    (hrej : (st.namespaces.include'.any (fun ns => ns debug)) = false ∨
      (st.namespaces.exclude.any (fun ns => ns debug)) = true ∨
      level.toNat < st.level.toNat) :
    (PercyLogger.log st debug level message meta timestamp).2.1 = [] ∧
    (PercyLogger.log st debug level message meta timestamp).1.messages =
      st.messages ++ [{ debug := debug, level := level, message := message
                        meta := meta, timestamp := timestamp }] := by
  have hrem : PercyLogger.isRemote st = false := by
    unfold PercyLogger.isRemote
    rw [hsock]
    rfl
  have hsl : ∀ ms : List LogEntry,
      PercyLogger.shouldLog { st with messages := ms } debug level = false := by
    intro ms
    unfold PercyLogger.shouldLog
    rcases hrej with h | h | h
    · simp [h]
    · simp [h]
    · have hd : decide (st.level.toNat ≤ level.toNat) = false := by
        simp
        omega
      simp [hd]
  unfold PercyLogger.log
  simp only [hrem, Bool.false_eq_true, if_false, hsl]
  constructor
  · simp
  · simp

/-- logSt9 is an example logger state at level info with one include
pattern for the core group and one exclude pattern for the sdk group, no
socket attached. -/
def logSt9 : LoggerState :=
  { level := LogLevel.info
    namespaces := { string := none
                    include' := [nsTest "core"], exclude := [nsTest "sdk"] }
    messages := [], deprecations := [], lastlog := none
    socket := none, isTTY := false, progressLine := none }

/-- Witness for C9 at a concrete input: an info log for an unmatched debug
group writes nothing to stdio yet its entry lands in the store. -/
theorem log_filtered_keeps_entry_witness :
    (PercyLogger.log logSt9 "other" LogLevel.info "hello" [] 5).2.1 = [] ∧
    (PercyLogger.log logSt9 "other" LogLevel.info "hello" [] 5).1.messages =
      logSt9.messages ++ [{ debug := "other", level := LogLevel.info, message := "hello"
                            meta := [], timestamp := 5 }] :=
  log_filtered_keeps_entry logSt9 "other" LogLevel.info "hello" [] 5 rfl
    (Or.inl (by decide))

/-- splitTokens embeds the tokenization of PercyLogger#debug: split on runs
of whitespace and commas, dropping empty tokens. -/
def splitTokens (s : String) : List String :=
  (s.split (fun c => c == ',' || c.isWhitespace)).filter (fun t => t != "")

/-- PercyLogger.debug embeds the debug method: an argument strictly equal
to the stored namespaces.string returns at once; otherwise the raw string
is stored, the argument is tokenized (an empty token list stops there),
the level is forced to debug, and the namespaces object is rebuilt from the
tokens, a leading hyphen marking an exclude pattern.  The rebuilt object
stores the token array in its string field, because the source reassigned
the local variable to the split array before seeding the reduce. -/
def PercyLogger.debug (st : LoggerState) (namespaces : String) : LoggerState :=
  if st.namespaces.string = some (Sum.inl namespaces) then st
  else
    let st1 := { st with namespaces :=
      { st.namespaces with string := some (Sum.inl namespaces) } }
    let toks := splitTokens namespaces
    if toks.isEmpty then st1
    else
      let st2 := { st1 with level := LogLevel.debug }
      let rebuilt := toks.foldl
        (fun acc tok =>
          if jsStartsWith tok "-" then
            { acc with exclude := acc.exclude ++ [nsTest (tok.drop 1)] }
          else
            { acc with include' := acc.include' ++ [nsTest tok] })
        { string := some (Sum.inr toks), include' := [], exclude := [] }
      { st2 with namespaces := rebuilt }

/-- C10: calling debug with a string equal to the currently stored
namespaces.string is a no-op: the call returns immediately and the whole
state, the log level and the include and exclude lists in particular, is
unchanged, whatever the current level is. -/
theorem debug_same_string_noop (st : LoggerState) (ns : String)
    (h : st.namespaces.string = some (Sum.inl ns)) :
    PercyLogger.debug st ns = st := by
  unfold PercyLogger.debug
  rw [if_pos h]

/-- logSt10 is an example logger state whose stored namespaces string is
the core wildcard while the level was meanwhile changed to error. -/
def logSt10 : LoggerState :=
  { level := LogLevel.error
    namespaces := { string := some (Sum.inl "core:*")
                    include' := [nsTest "core:*"], exclude := [] }
    messages := [], deprecations := [], lastlog := none
    socket := none, isTTY := false, progressLine := none }

/-- Witness for C10 at a concrete input: repeating the stored namespaces
string leaves the state untouched even though the level is no longer
debug. -/
theorem debug_same_string_noop_witness :
    PercyLogger.debug logSt10 "core:*" = logSt10 :=
  debug_same_string_noop logSt10 "core:*" rfl
